import Mathlib

/-!
Shallow embedding of `src/main.go` of the `projtrack` repository: a
single-user CLI project tracker.  Instants of time are modelled as `Int`
seconds since the Unix epoch (Go `time.Time` at one fixed location);
a calendar date `d` corresponds to the instant `d * 86400` (midnight),
which is what `parseDate` produces for every stored date.
-/

/-- Seconds in one day. -/
def secPerDay : Int := 86400

/-- ANSI color code, `ColorReset` in the source. -/
def ColorReset : String := "\x1b[0m"

/-- ANSI color code, `ColorRed` in the source. -/
def ColorRed : String := "\x1b[31m"

/-- ANSI color code, `ColorYellow` in the source. -/
def ColorYellow : String := "\x1b[33m"

/-- ANSI color code, `ColorGreen` in the source. -/
def ColorGreen : String := "\x1b[32m"

/-- ANSI color code, `ColorCyan` in the source. -/
def ColorCyan : String := "\x1b[36m"

/-- The `Project` struct of `main.go`: `ID`, `Name`, `StartDate`, `DueDate`,
`Done`, `Tags`, `Notes`.  Dates are instants (`Int` seconds since epoch). -/
structure Project where
  id : Int
  name : String
  startDate : Int
  dueDate : Int
  done : Bool
  tags : List String
  notes : String
deriving DecidableEq, Repr

/-- Function `truncateToDate` of `main.go`: midnight of the calendar day containing
`t`.  `Int.ediv` is floor division for the positive divisor `86400`, which
matches reconstructing the date at 00:00:00. -/
def truncateToDate (t : Int) : Int :=
  secPerDay * (t / secPerDay)

/-- Function `isOverdue` of `main.go`: a project is overdue when it is not done and
its due date is strictly before midnight of the current day. -/
def isOverdue (p : Project) (now : Int) : Bool :=
  if p.done then false
  else decide (p.dueDate < truncateToDate now)

/-- Function `statusColorAndLabel` of `main.go`.  Go computes
`days := int(diff.Hours() / 24)`, i.e. the whole-day difference truncated
toward zero, which on integer seconds is `Int.tdiv diff 86400`. -/
def statusColorAndLabel (p : Project) (now : Int) : String × String :=
  if p.done then (ColorCyan, "DONE")
  else
    let diff := p.dueDate - now
    let days := Int.tdiv diff secPerDay
    if days < 0 then (ColorRed, s!"OVERDUE ({-days} days ago)")
    else if days = 0 then (ColorRed, "DUE TODAY")
    else if days ≤ 2 then (ColorRed, s!"DUE IN {days} DAYS")
    else if days ≤ 7 then (ColorYellow, s!"DUE IN {days} DAYS")
    else (ColorGreen, s!"DUE IN {days} DAYS")

/-- Truncation toward zero expressed through Euclidean division, by sign
of the dividend. -/
theorem tdiv_eq_ediv_cases (a b : Int) (hb : 0 ≤ b) :
    Int.tdiv a b = if 0 ≤ a then a / b else -((-a) / b) := by
  by_cases h : 0 ≤ a
  · rw [if_pos h]
    exact Int.tdiv_eq_ediv h hb
  · rw [if_neg h]
    have h1 : Int.tdiv (-(-a)) b = -(Int.tdiv (-a) b) := Int.neg_tdiv (-a) b
    rw [Int.neg_neg] at h1
    rw [h1, Int.tdiv_eq_ediv (by omega) hb]

/-- C3: a done project is reported `DONE` with the neutral cyan color,
whatever its due date and the current time. -/
theorem done_status_is_DONE_cyan (i : Int) (nm : String) (sd dd : Int)
    (tg : List String) (nt : String) (now : Int) :
    statusColorAndLabel ⟨i, nm, sd, dd, true, tg, nt⟩ now = (ColorCyan, "DONE") := by
  rfl

/-- C2: status-classification boundaries for a not-done project, for every
current time `now`: due one day before `now` is OVERDUE; due exactly `now`
is DUE TODAY; due two days ahead is in the red (urgent) tier; seven days
ahead in the yellow (warning) tier; eight days ahead in the green (normal)
tier. -/
theorem status_boundaries (i : Int) (nm : String) (sd : Int)
    (tg : List String) (nt : String) (now : Int) :
    statusColorAndLabel ⟨i, nm, sd, now - 1 * secPerDay, false, tg, nt⟩ now
        = (ColorRed, "OVERDUE (1 days ago)")
    ∧ statusColorAndLabel ⟨i, nm, sd, now, false, tg, nt⟩ now
        = (ColorRed, "DUE TODAY")
    ∧ statusColorAndLabel ⟨i, nm, sd, now + 2 * secPerDay, false, tg, nt⟩ now
        = (ColorRed, "DUE IN 2 DAYS")
    ∧ statusColorAndLabel ⟨i, nm, sd, now + 7 * secPerDay, false, tg, nt⟩ now
        = (ColorYellow, "DUE IN 7 DAYS")
    ∧ statusColorAndLabel ⟨i, nm, sd, now + 8 * secPerDay, false, tg, nt⟩ now
        = (ColorGreen, "DUE IN 8 DAYS") := by
  refine ⟨?_, ?_, ?_, ?_, ?_⟩ <;>
    simp only [statusColorAndLabel, secPerDay, Bool.false_eq_true, if_false]
  · have h : now - 1 * 86400 - now = -86400 := by ring
    rw [h]; decide
  · have h : now - now = 0 := by ring
    rw [h]; decide
  · have h : now + 2 * 86400 - now = 172800 := by ring
    rw [h]; decide
  · have h : now + 7 * 86400 - now = 604800 := by ring
    rw [h]; decide
  · have h : now + 8 * 86400 - now = 691200 := by ring
    rw [h]; decide

/-- C1: a not-done project whose (midnight-valued) due date falls on a
calendar day strictly before the current day — i.e. `isOverdue` holds, the
glossary notion of overdue — is labelled `OVERDUE ... days ago` with the
red color, for every second `s` of the current day. -/
theorem overdue_projects_get_OVERDUE (p : Project) (d c s : Int)
    (hdone : p.done = false)
    (hdue : p.dueDate = d * secPerDay)
    (hlo : 0 ≤ s) (hhi : s < secPerDay)
    (hover : isOverdue p (c * secPerDay + s) = true) :
    ∃ n : Int, 0 < n ∧
      statusColorAndLabel p (c * secPerDay + s)
        = (ColorRed, s!"OVERDUE ({n} days ago)") := by
  simp only [isOverdue, hdone, if_false, truncateToDate, secPerDay,
    decide_eq_true_eq, Bool.false_eq_true] at hover
  rw [hdue] at hover
  simp only [secPerDay] at hlo hhi hdue hover ⊢
  have hdc : d < c := by omega
  have hneg : ¬ (0 ≤ p.dueDate - (c * 86400 + s)) := by
    rw [hdue]; omega
  have hdays : Int.tdiv (p.dueDate - (c * 86400 + s)) 86400
      = -((-(p.dueDate - (c * 86400 + s))) / 86400) := by
    rw [tdiv_eq_ediv_cases _ _ (by norm_num), if_neg hneg]
  have hpos : 0 < (-(p.dueDate - (c * 86400 + s))) / 86400 := by
    rw [hdue]; omega
  refine ⟨(-(p.dueDate - (c * 86400 + s))) / 86400, hpos, ?_⟩
  simp only [statusColorAndLabel, hdone, Bool.false_eq_true, if_false,
    secPerDay, hdays, if_pos (by omega : -((-(p.dueDate - (c * 86400 + s))) / 86400) < 0)]
  rw [Int.neg_neg]

/-- Concrete instantiation of `overdue_projects_get_OVERDUE`: a project due
on day 0, not done, seen at midnight of day 1. -/
theorem overdue_projects_get_OVERDUE_witness :
    (Project.done ⟨1, "p", 0, 0, false, [], ""⟩ = false
      ∧ isOverdue ⟨1, "p", 0, 0, false, [], ""⟩ (1 * secPerDay + 0) = true)
    ∧ ∃ n : Int, 0 < n ∧
        statusColorAndLabel ⟨1, "p", 0, 0, false, [], ""⟩ (1 * secPerDay + 0)
          = (ColorRed, s!"OVERDUE ({n} days ago)") :=
  ⟨⟨rfl, by decide⟩,
    overdue_projects_get_OVERDUE ⟨1, "p", 0, 0, false, [], ""⟩ 0 1 0
      rfl (by decide) (by decide) (by decide) (by decide)⟩

/-- Two's-complement wrap-around of Go `int` (64-bit) arithmetic: the
representative of `n` modulo `2^64` lying in `[-2^63, 2^63)`. -/
def wrapInt64 (n : Int) : Int :=
  (n + 9223372036854775808) % 18446744073709551616 - 9223372036854775808

/-- Function `nextID` of `main.go`: one more than the maximum existing ID,
starting the scan from `maxID = 0`.  The comparisons in the loop do not
overflow, but the final `maxID + 1` is Go `int` addition and wraps at
`MaxInt64`. -/
def nextID (projects : List Project) : Int :=
  wrapInt64
    ((projects.foldl (fun maxID p => if p.id > maxID then p.id else maxID) 0) + 1)

/-- The running maximum in `nextID` never drops below its initial value. -/
theorem nextID_foldl_ge_init (l : List Project) (acc : Int) :
    acc ≤ l.foldl (fun maxID p => if p.id > maxID then p.id else maxID) acc := by
  induction l generalizing acc with
  | nil => exact le_refl acc
  | cons q rest ih =>
    refine le_trans ?_ (ih _)
    by_cases h : q.id > acc
    · simp only [if_pos h]; omega
    · simp only [if_neg h]; omega

/-- The running maximum in `nextID` dominates every ID seen. -/
theorem id_le_nextID_foldl (l : List Project) (acc : Int) :
    ∀ p ∈ l, p.id ≤ l.foldl (fun maxID p => if p.id > maxID then p.id else maxID) acc := by
  induction l generalizing acc with
  | nil => intro p hp; cases hp
  | cons q rest ih =>
    intro p hp
    rcases List.mem_cons.mp hp with h | h
    · subst h
      refine le_trans ?_ (nextID_foldl_ge_init rest _)
      by_cases h2 : p.id > acc
      · simp only [if_pos h2]; omega
      · simp only [if_neg h2]; omega
    · exact ih _ p h

/-- The running maximum in `nextID` never exceeds a bound that dominates
its initial value and every ID. -/
theorem nextID_foldl_le_ub (l : List Project) (acc B : Int) (hacc : acc ≤ B)
    (h : ∀ p ∈ l, p.id ≤ B) :
    l.foldl (fun maxID p => if p.id > maxID then p.id else maxID) acc ≤ B := by
  induction l generalizing acc with
  | nil => exact hacc
  | cons q rest ih =>
    refine ih _ ?_ (fun p hp => h p (List.mem_cons_of_mem q hp))
    by_cases h2 : q.id > acc
    · simp only [if_pos h2]
      exact h q (List.mem_cons_self q rest)
    · simp only [if_neg h2]
      exact hacc

/-- Values already in the `int64` range are fixed by the wrap. -/
theorem wrapInt64_eq_self (n : Int) (h1 : -9223372036854775808 ≤ n)
    (h2 : n < 9223372036854775808) : wrapInt64 n = n := by
  unfold wrapInt64
  omega

/-- When no ID is `MaxInt64` (or larger), the increment in `nextID` does
not wrap and the result is strictly above every ID in the list. -/
theorem id_lt_nextID (l : List Project)
    (hub : ∀ p ∈ l, p.id < 9223372036854775807) :
    ∀ p ∈ l, p.id < nextID l := by
  intro p hp
  have hle := id_le_nextID_foldl l 0 p hp
  have hge := nextID_foldl_ge_init l 0
  have hmax : l.foldl (fun maxID p => if p.id > maxID then p.id else maxID) 0
      ≤ 9223372036854775806 :=
    nextID_foldl_le_ub l 0 9223372036854775806 (by omega)
      (fun q hq => by have := hub q hq; omega)
  unfold nextID
  rw [wrapInt64_eq_self _ (by omega) (by omega)]
  omega

/-- A project carrying the maximal Go `int` as its ID. -/
def pMax : Project := ⟨9223372036854775807, "m", 0, 0, false, [], ""⟩

/-- A project carrying the minimal Go `int` as its ID. -/
def pMin : Project := ⟨-9223372036854775808, "n", 0, 0, false, [], ""⟩

/-- C4 counterexample: on a list holding the ID `MaxInt64` — a state
`json.Unmarshal` accepts — the increment in `nextID` wraps to `MinInt64`,
which is not greater than the stored ID. -/
theorem nextID_wrap_counterexample :
    pMax ∈ [pMax]
    ∧ nextID [pMax] = -9223372036854775808
    ∧ ¬ (pMax.id < nextID [pMax]) := by
  decide

/-- C4 (amended): when every stored ID is strictly below
`MaxInt64 = 2^63 - 1`, `nextID` returns an integer strictly greater than
the ID of every project in the list (vacuously so for the empty list). -/
theorem nextID_gt_every_id_below_max (l : List Project)
    (hub : ∀ p ∈ l, p.id < 9223372036854775807)
    (p : Project) (hp : p ∈ l) :
    p.id < nextID l :=
  id_lt_nextID l hub p hp

/-- A concrete project used by the witnesses below. -/
def sampleA : Project := ⟨7, "a", 0, 0, false, [], ""⟩

/-- A second concrete project used by the witnesses below. -/
def sampleB : Project := ⟨3, "b", 0, 0, true, [], ""⟩

/-- Concrete instantiation of `nextID_gt_every_id_below_max` on a
two-project list. -/
theorem nextID_gt_every_id_below_max_witness :
    ((∀ p ∈ [sampleA, sampleB], p.id < 9223372036854775807)
      ∧ sampleA ∈ [sampleA, sampleB])
    ∧ sampleA.id < nextID [sampleA, sampleB] :=
  ⟨⟨by decide, by decide⟩,
    nextID_gt_every_id_below_max [sampleA, sampleB] (by decide) sampleA (by decide)⟩

/-- C5 counterexample: the IDs `MaxInt64` and `MinInt64` are pairwise
distinct, yet `nextID` wraps to `MinInt64` and appending it duplicates an
ID. -/
theorem add_wrap_duplicate_counterexample :
    (([pMax, pMin].map Project.id).Nodup)
    ∧ ¬ ((([pMax, pMin]
          ++ [(⟨nextID [pMax, pMin], "c", 0, 0, false, [], ""⟩ : Project)]).map
            Project.id).Nodup) := by
  decide

/-- C5 (amended): when every stored ID is strictly below `MaxInt64`,
`cmdAdd` appends a project whose ID is `nextID projects`, and if the IDs
were pairwise distinct before, they still are afterwards. -/
theorem add_preserves_unique_ids_below_max (l : List Project)
    (nm : String) (sd dd : Int) (tg : List String) (nt : String)
    (hub : ∀ p ∈ l, p.id < 9223372036854775807)
    (h : (l.map Project.id).Nodup) :
    ((l ++ [(⟨nextID l, nm, sd, dd, false, tg, nt⟩ : Project)]).map Project.id).Nodup := by
  rw [List.map_append]
  refine List.Nodup.append h (List.nodup_singleton _) ?_
  intro a ha hb
  rw [List.map_singleton, List.mem_singleton] at hb
  rcases List.mem_map.mp ha with ⟨p, hp, hid⟩
  have hlt := id_lt_nextID l hub p hp
  rw [hid, hb] at hlt
  exact absurd hlt (lt_irrefl _)

/-- Concrete instantiation of `add_preserves_unique_ids_below_max`. -/
theorem add_preserves_unique_ids_below_max_witness :
    ((∀ p ∈ [sampleA, sampleB], p.id < 9223372036854775807)
      ∧ ([sampleA, sampleB].map Project.id).Nodup)
    ∧ (([sampleA, sampleB]
          ++ [(⟨nextID [sampleA, sampleB], "c", 0, 0, false, [], ""⟩ : Project)]).map
            Project.id).Nodup :=
  ⟨⟨by decide, by decide⟩,
    add_preserves_unique_ids_below_max [sampleA, sampleB] "c" 0 0 [] ""
      (by decide) (by decide)⟩

/-- JSON values, the shape `encoding/json` reads and writes. -/
inductive Json where
  | num (n : Int)
  | str (s : String)
  | bool (b : Bool)
  | arr (elems : List Json)
  | obj (fields : List (String × Json))

/-- Marshalling of one `Project` by `encoding/json`: the struct fields in
declaration order under their JSON keys; `tags` and `notes` carry
`omitempty`, so an empty tag list and an empty notes string are omitted.
A `time.Time` is rendered as the instant it denotes. -/
def encodeProject (p : Project) : Json :=
  Json.obj
    ([("id", Json.num p.id), ("name", Json.str p.name),
      ("start_date", Json.num p.startDate), ("due_date", Json.num p.dueDate),
      ("done", Json.bool p.done)]
     ++ (if p.tags = [] then [] else [("tags", Json.arr (p.tags.map Json.str))])
     ++ (if p.notes = "" then [] else [("notes", Json.str p.notes)]))

/-- First binding of a key in a JSON object. -/
def jLookup (fields : List (String × Json)) (k : String) : Option Json :=
  match fields with
  | [] => none
  | (k2, v) :: rest => if k2 = k then some v else jLookup rest k

/-- Reading a JSON value as an integer instant. -/
def jAsNum : Json → Option Int
  | Json.num n => some n
  | _ => none

/-- Reading a JSON value as a string. -/
def jAsStr : Json → Option String
  | Json.str s => some s
  | _ => none

/-- Reading a JSON value as a boolean. -/
def jAsBool : Json → Option Bool
  | Json.bool b => some b
  | _ => none

/-- Reading a list of JSON values as strings, elementwise; any failure
aborts the whole read. -/
def jAsStrs : List Json → Option (List String)
  | [] => some []
  | x :: rest => do
    let s ← jAsStr x
    let ss ← jAsStrs rest
    some (s :: ss)

/-- Reading a JSON value as an array of strings. -/
def jAsStrList : Json → Option (List String)
  | Json.arr xs => jAsStrs xs
  | _ => none

/-- Unmarshalling of one `Project`: each present key populates its field,
absent `tags`/`notes` keep their zero values (empty list, empty string). -/
def decodeProject (j : Json) : Option Project :=
  match j with
  | Json.obj fs => do
    let i ← (jLookup fs "id").bind jAsNum
    let nm ← (jLookup fs "name").bind jAsStr
    let sd ← (jLookup fs "start_date").bind jAsNum
    let dd ← (jLookup fs "due_date").bind jAsNum
    let dn ← (jLookup fs "done").bind jAsBool
    let tg ← match jLookup fs "tags" with
      | none => some []
      | some t => jAsStrList t
    let nt ← match jLookup fs "notes" with
      | none => some ""
      | some t => jAsStr t
    some ⟨i, nm, sd, dd, dn, tg, nt⟩
  | _ => none

/-- Function `saveProjects` of `main.go`: marshal the full list and overwrite the
storage file; the result is the file content left on disk. -/
def saveProjects (projects : List Project) : Json :=
  Json.arr (projects.map encodeProject)

/-- Unmarshalling a JSON array elementwise as projects; any element
failure aborts the whole load. -/
def decodeProjectList : List Json → Option (List Project)
  | [] => some []
  | x :: rest => do
    let p ← decodeProject x
    let ps ← decodeProjectList rest
    some (p :: ps)

/-- Function `loadProjects` of `main.go` applied to the storage-file state: a
missing file yields the empty list, otherwise the content must unmarshal
as a list of `Project`. -/
def loadProjects (file : Option Json) : Option (List Project) :=
  match file with
  | none => some []
  | some (Json.arr xs) => decodeProjectList xs
  | some _ => none

/-- Strings encoded then read back are unchanged. -/
theorem jAsStr_roundtrip (ts : List String) :
    jAsStrs (ts.map Json.str) = some ts := by
  induction ts with
  | nil => rfl
  | cons a rest ih => simp [jAsStrs, ih, jAsStr]

/-- One project marshals and unmarshals to itself. -/
theorem decodeProject_encodeProject (p : Project) :
    decodeProject (encodeProject p) = some p := by
  rcases p with ⟨i, nm, sd, dd, dn, tg, nt⟩
  by_cases ht : tg = ([] : List String) <;> by_cases hn : nt = ""
  · subst ht; subst hn; rfl
  · subst ht
    simp only [encodeProject, if_neg hn, if_pos rfl]
    simp [decodeProject, jLookup, jAsNum, jAsStr, jAsBool]
  · subst hn
    simp only [encodeProject, if_neg ht, if_pos rfl]
    simp [decodeProject, jLookup, jAsNum, jAsStr, jAsBool, jAsStrList,
      jAsStr_roundtrip]
  · simp only [encodeProject, if_neg ht, if_neg hn]
    simp [decodeProject, jLookup, jAsNum, jAsStr, jAsBool, jAsStrList,
      jAsStr_roundtrip]

/-- C6: persistence round-trip is the identity — saving any project list
and loading the resulting file yields the same list, in the same order. -/
theorem save_load_roundtrip (l : List Project) :
    loadProjects (some (saveProjects l)) = some l := by
  simp only [saveProjects, loadProjects]
  induction l with
  | nil => rfl
  | cons p rest ih =>
    simp [decodeProjectList, decodeProject_encodeProject, ih]

/-- What the `done` command prints: the success line or the
`No project with ID %d` error line. -/
inductive DoneOutput where
  | marked (i : Int)
  | notFound (i : Int)
deriving DecidableEq, Repr

/-- What the `show` command prints: the detail block of the found project
or the `No project with ID %d` error line. -/
inductive ShowOutput where
  | details (p : Project)
  | notFound (i : Int)
deriving DecidableEq, Repr

/-- The mutation loop of `cmdDone`: set `Done` on the first project whose
ID matches, then `break`; later projects are left untouched. -/
def markDone : List Project → Int → List Project
  | [], _ => []
  | p :: rest, i =>
    if p.id = i then { p with done := true } :: rest
    else p :: markDone rest i

/-- Function `cmdDone` of `main.go` after flag parsing and a successful load:
returns the process exit code, the line printed, and the list passed to
`saveProjects` (`none` when nothing is saved).  When no ID matches it
prints the error and calls `os.Exit(1)` without saving. -/
def cmdDoneRun (projects : List Project) (i : Int) :
    Nat × DoneOutput × Option (List Project) :=
  if projects.any (fun p => p.id == i) then
    (0, DoneOutput.marked i, some (markDone projects i))
  else
    (1, DoneOutput.notFound i, none)

/-- Function `cmdShow` of `main.go` after flag parsing and a successful load: the
first project with the ID is printed and the function returns; when no ID
matches it prints the error line and falls through to the end of the
function, so `main` returns normally and the process exits with code 0. -/
def cmdShowRun (projects : List Project) (i : Int) : Nat × ShowOutput :=
  match projects.find? (fun p => p.id == i) with
  | some p => (0, ShowOutput.details p)
  | none => (0, ShowOutput.notFound i)

/-- C7 counterexample: `show` with an ID matching no project reports the
error but exits with code 0, not 1. -/
theorem show_missing_id_exits_zero :
    cmdShowRun [] 1 = (0, ShowOutput.notFound 1) ∧ (cmdShowRun [] 1).1 ≠ 1 := by
  decide

/-- C7 (amended): with an ID matching no stored project, `done` reports
the error and exits with code 1, while `show` reports the error and the
process exits with code 0. -/
theorem missing_id_done_exit1_show_exit0 (l : List Project) (i : Int)
    (h : ∀ p ∈ l, p.id ≠ i) :
    cmdDoneRun l i = (1, DoneOutput.notFound i, none)
    ∧ cmdShowRun l i = (0, ShowOutput.notFound i) := by
  have hany : l.any (fun p => p.id == i) = false := by
    rw [List.any_eq_false]
    intro p hp
    simp [h p hp]
  have hfind : l.find? (fun p => p.id == i) = none := by
    rw [List.find?_eq_none]
    intro p hp
    simp [h p hp]
  constructor
  · simp [cmdDoneRun, hany]
  · simp [cmdShowRun, hfind]

/-- Concrete instantiation of `missing_id_done_exit1_show_exit0`. -/
theorem missing_id_done_exit1_show_exit0_witness :
    (∀ p ∈ [sampleA, sampleB], p.id ≠ 99)
    ∧ cmdDoneRun [sampleA, sampleB] 99 = (1, DoneOutput.notFound 99, none)
    ∧ cmdShowRun [sampleA, sampleB] 99 = (0, ShowOutput.notFound 99) :=
  ⟨by decide, missing_id_done_exit1_show_exit0 [sampleA, sampleB] 99 (by decide)⟩

/-- Function `markDone` never changes the length of the list. -/
theorem markDone_length (l : List Project) (i : Int) :
    (markDone l i).length = l.length := by
  induction l with
  | nil => rfl
  | cons p rest ih =>
    by_cases h : p.id = i <;> simp [markDone, h, ih]

/-- Mapping the per-project `done` update over a list without the target
ID changes nothing. -/
theorem map_markDone_of_not_mem (rest : List Project) (i : Int)
    (h : ∀ q ∈ rest, q.id ≠ i) :
    rest.map (fun p => if p.id = i then { p with done := true } else p) = rest := by
  induction rest with
  | nil => rfl
  | cons q rr ih =>
    have hq : q.id ≠ i := h q (List.mem_cons_self q rr)
    simp only [List.map_cons, if_neg hq]
    rw [ih (fun r hr => h r (List.mem_cons_of_mem q hr))]

/-- Under unique IDs, `markDone` acts pointwise: the matching project gets
`done := true`, every other entry is returned unchanged, in place. -/
theorem markDone_eq_map (l : List Project) (i : Int)
    (huniq : (l.map Project.id).Nodup) :
    markDone l i
      = l.map (fun p => if p.id = i then { p with done := true } else p) := by
  induction l with
  | nil => rfl
  | cons p rest ih =>
    rw [List.map_cons, List.nodup_cons] at huniq
    by_cases h : p.id = i
    · simp only [markDone, if_pos h, List.map_cons]
      rw [map_markDone_of_not_mem rest i]
      intro q hq hqi
      exact huniq.1 (List.mem_map.mpr ⟨q, hq, by rw [hqi, ← h]⟩)
    · simp only [markDone, if_neg h, List.map_cons]
      rw [ih huniq.2]

/-- C8: with unique IDs and an existing target ID, the `done` command saves
a list of the same length in the same order in which every entry keeps its
ID, name, start date, due date, tags and notes, the entry with the target
ID has its `done` flag set to true, and every other entry keeps its `done`
flag. -/
theorem done_changes_only_done_flag (l : List Project) (i : Int)
    (huniq : (l.map Project.id).Nodup)
    (hmem : ∃ p ∈ l, p.id = i) :
    (cmdDoneRun l i).2.2 = some (markDone l i)
    ∧ (markDone l i).length = l.length
    ∧ ∀ (k : Nat) (hk : k < l.length),
        ((markDone l i).get ⟨k, hk.trans_eq (markDone_length l i).symm⟩).id
            = (l.get ⟨k, hk⟩).id
        ∧ ((markDone l i).get ⟨k, hk.trans_eq (markDone_length l i).symm⟩).name
            = (l.get ⟨k, hk⟩).name
        ∧ ((markDone l i).get ⟨k, hk.trans_eq (markDone_length l i).symm⟩).startDate
            = (l.get ⟨k, hk⟩).startDate
        ∧ ((markDone l i).get ⟨k, hk.trans_eq (markDone_length l i).symm⟩).dueDate
            = (l.get ⟨k, hk⟩).dueDate
        ∧ ((markDone l i).get ⟨k, hk.trans_eq (markDone_length l i).symm⟩).tags
            = (l.get ⟨k, hk⟩).tags
        ∧ ((markDone l i).get ⟨k, hk.trans_eq (markDone_length l i).symm⟩).notes
            = (l.get ⟨k, hk⟩).notes
        ∧ ((markDone l i).get ⟨k, hk.trans_eq (markDone_length l i).symm⟩).done
            = (if (l.get ⟨k, hk⟩).id = i then true else (l.get ⟨k, hk⟩).done) := by
  obtain ⟨p0, hp0, hp0i⟩ := hmem
  have hany : l.any (fun p => p.id == i) = true :=
    List.any_eq_true.mpr ⟨p0, hp0, by simp [hp0i]⟩
  refine ⟨by simp [cmdDoneRun, hany], markDone_length l i, ?_⟩
  intro k hk
  have hget : (markDone l i).get ⟨k, hk.trans_eq (markDone_length l i).symm⟩
      = (if (l.get ⟨k, hk⟩).id = i
          then { l.get ⟨k, hk⟩ with done := true } else l.get ⟨k, hk⟩) := by
    have hmap := markDone_eq_map l i huniq
    simp only [List.get_eq_getElem] at *
    rw [List.getElem_of_eq hmap, List.getElem_map]
  rw [hget]
  simp only [List.get_eq_getElem]
  by_cases h : (l.get ⟨k, hk⟩).id = i <;>
    simp only [List.get_eq_getElem] at h <;> simp [h]

/-- Concrete instantiation of `done_changes_only_done_flag` on a
two-project list, marking ID 3 done. -/
theorem done_changes_only_done_flag_witness :
    ((([sampleA, sampleB].map Project.id).Nodup)
      ∧ ∃ p ∈ [sampleA, sampleB], p.id = 3)
    ∧ ((cmdDoneRun [sampleA, sampleB] 3).2.2 = some (markDone [sampleA, sampleB] 3)
      ∧ (markDone [sampleA, sampleB] 3).length = [sampleA, sampleB].length
      ∧ ∀ (k : Nat) (hk : k < [sampleA, sampleB].length),
          ((markDone [sampleA, sampleB] 3).get
              ⟨k, hk.trans_eq (markDone_length [sampleA, sampleB] 3).symm⟩).id
              = ([sampleA, sampleB].get ⟨k, hk⟩).id
          ∧ ((markDone [sampleA, sampleB] 3).get
              ⟨k, hk.trans_eq (markDone_length [sampleA, sampleB] 3).symm⟩).name
              = ([sampleA, sampleB].get ⟨k, hk⟩).name
          ∧ ((markDone [sampleA, sampleB] 3).get
              ⟨k, hk.trans_eq (markDone_length [sampleA, sampleB] 3).symm⟩).startDate
              = ([sampleA, sampleB].get ⟨k, hk⟩).startDate
          ∧ ((markDone [sampleA, sampleB] 3).get
              ⟨k, hk.trans_eq (markDone_length [sampleA, sampleB] 3).symm⟩).dueDate
              = ([sampleA, sampleB].get ⟨k, hk⟩).dueDate
          ∧ ((markDone [sampleA, sampleB] 3).get
              ⟨k, hk.trans_eq (markDone_length [sampleA, sampleB] 3).symm⟩).tags
              = ([sampleA, sampleB].get ⟨k, hk⟩).tags
          ∧ ((markDone [sampleA, sampleB] 3).get
              ⟨k, hk.trans_eq (markDone_length [sampleA, sampleB] 3).symm⟩).notes
              = ([sampleA, sampleB].get ⟨k, hk⟩).notes
          ∧ ((markDone [sampleA, sampleB] 3).get
              ⟨k, hk.trans_eq (markDone_length [sampleA, sampleB] 3).symm⟩).done
              = (if ([sampleA, sampleB].get ⟨k, hk⟩).id = 3 then true
                 else ([sampleA, sampleB].get ⟨k, hk⟩).done)) :=
  ⟨⟨by decide, by decide⟩,
    done_changes_only_done_flag [sampleA, sampleB] 3 (by decide) (by decide)⟩

/-- Go `strings.ToLower`: character-wise lowercasing of a string (Go applies
full Unicode lowercasing; on the ASCII filter strings compared below the
two agree). -/
def toLowerStr (s : String) : String :=
  String.mk (s.data.map Char.toLower)

/-- Function `hasTag` of `main.go`: an empty filter matches everything, otherwise
some tag must equal the filter up to case (`strings.EqualFold`, modelled
as comparison of lowercased strings, which agrees on ASCII). -/
def hasTag (p : Project) (tag : String) : Bool :=
  if tag = "" then true
  else p.tags.any (fun t => toLowerStr t == toLowerStr tag)

/-- Function `matchesStatusFilter` of `main.go`: switch on the lowercased filter;
an unknown status is treated as `all`. -/
def matchesStatusFilter (p : Project) (status : String) (now : Int) : Bool :=
  let s := toLowerStr status
  if s = "all" then true
  else if s = "" then true
  else if s = "active" then !p.done
  else if s = "done" then p.done
  else if s = "overdue" then isOverdue p now
  else true

/-- The rows printed by `cmdList` of `main.go`, in order: the loaded list
is sorted by due date (`sort.Slice` with `DueDate.Before`), then each row
is printed unless one of the two filters rejects it. -/
def cmdListRows (projects : List Project) (status tag : String) (now : Int) :
    List Project :=
  (projects.mergeSort (fun a b => decide (a.dueDate ≤ b.dueDate))).filter
    (fun p => matchesStatusFilter p status now && hasTag p tag)

/-- C9: for every stored list and both filters, the printed rows appear in
nondecreasing order of due date. -/
theorem list_rows_sorted_by_due (projects : List Project) (status tag : String)
    (now : Int) :
    List.Pairwise (fun a b => a.dueDate ≤ b.dueDate)
      (cmdListRows projects status tag now) := by
  have hs := @List.sorted_mergeSort Project
      (fun a b => decide (a.dueDate ≤ b.dueDate))
      (by
        intro a b c hab hbc
        simp only [decide_eq_true_eq] at hab hbc ⊢
        exact le_trans hab hbc)
      (by
        intro a b
        simp only [Bool.or_eq_true, decide_eq_true_eq]
        exact le_total _ _)
      projects
  have hsub : (cmdListRows projects status tag now).Sublist
      (projects.mergeSort (fun a b => decide (a.dueDate ≤ b.dueDate))) :=
    List.filter_sublist _
  exact (List.Pairwise.sublist hsub hs).imp (fun h => by simpa using h)

/-- C10: a status filter that lowercases to none of the five recognized
strings makes `matchesStatusFilter` accept every project — it is silently
treated as `all`, not rejected. -/
theorem unknown_status_filter_matches_all (p : Project) (status : String)
    (now : Int)
    (h : toLowerStr status ∉ (["all", "", "active", "done", "overdue"] : List String)) :
    matchesStatusFilter p status now = true := by
  simp only [List.mem_cons, List.not_mem_nil, or_false, not_or] at h
  obtain ⟨h1, h2, h3, h4, h5⟩ := h
  simp only [matchesStatusFilter, if_neg h1, if_neg h2, if_neg h3, if_neg h4,
    if_neg h5]

/-- Concrete instantiation of `unknown_status_filter_matches_all` at the
unknown filter string `banana`. -/
theorem unknown_status_filter_matches_all_witness :
    toLowerStr "banana" ∉ (["all", "", "active", "done", "overdue"] : List String)
    ∧ matchesStatusFilter sampleA "banana" 0 = true :=
  ⟨by decide, unknown_status_filter_matches_all sampleA "banana" 0 (by decide)⟩
